import Mathlib

/-!
Shallow embedding of pygochan (Go-style channels): `Selector`, `Channel.put`,
`Channel.get` and `channel_select`, with the selector objects made explicit as
a heap indexed by natural-number ids, and writer events as natural-number ids.
Raising `Channel.Full` / `Channel.Empty` and the blocking points are modelled
as explicit outcomes; the lock-held portion of each operation is one state
transition.
-/

namespace Pygochan

/-- State of a `Selector` instance: the `_set` flag and the stored `_value`
(`_event` is set exactly when `_set` is, so it is not modelled separately). -/
structure Selector (V : Type) where
  isSet : Bool
  value : Option V
  deriving DecidableEq

/-- A fresh `Selector()`: not set, no value. -/
def Selector.mk0 {V : Type} : Selector V := ⟨false, none⟩

/-- Selector objects live in a heap (Python object identity): id = index. -/
abbrev Heap (V : Type) := List (Selector V)

variable {V : Type}

/-- Read a selector from the heap (out-of-range reads a fresh selector;
unreachable for ids of allocated selectors). -/
def heapGet : Heap V → Nat → Selector V
  | [], _ => Selector.mk0
  | s :: _, 0 => s
  | _ :: t, n + 1 => heapGet t n

/-- Write a selector back to the heap. -/
def heapSet : Heap V → Nat → Selector V → Heap V
  | [], _, _ => []
  | _ :: t, 0, s => s :: t
  | x :: t, n + 1, s => x :: heapSet t n s

/-- `Selector.offer(value)`: if already set return `False`; otherwise record
the value, mark set (and set the event) and return `True`. -/
def Selector.offer (h : Heap V) (sid : Nat) (v : V) : Bool × Heap V :=
  if (heapGet h sid).isSet then (false, h)
  else (true, heapSet h sid ⟨true, some v⟩)

/-- `Selector.stale()`: read the `_set` flag. -/
def Selector.stale (h : Heap V) (sid : Nat) : Bool :=
  (heapGet h sid).isSet

/-- `Selector.get()`: wait for the event and return `_value`. In the
embedding, `none` means the call would still be blocked. -/
def Selector.get (h : Heap V) (sid : Nat) : Option V :=
  (heapGet h sid).value

/-- State of a `Channel`: `_max` (`none` = unbounded `{}` sentinel),
`_pending`, `_waiting_writers` as (event id, value) pairs, `_waiting_readers`
as selector ids, and the `_stale` counter. -/
structure Channel (V : Type) where
  max : Option Nat
  pending : List V
  waiting_writers : List (Nat × V)
  waiting_readers : List Nat
  stale : Nat
  deriving DecidableEq

/-- The per-channel constant `_max_stale = 256`. -/
def maxStale : Nat := 256

/-- `Channel.__init__(size)`: empty queues, stale counter 0. -/
def Channel.init (size : Option Nat) : Channel V := ⟨size, [], [], [], 0⟩

/-- Outcome of a `put` call: handed to a waiting reader, appended to
`_pending`, registered as a blocked writer (would wait on its event), raised
`Channel.Full`, or raised the fatal impossible-error exception. -/
inductive PutOutcome where
  | delivered
  | buffered
  | blocked (eid : Nat)
  | full
  | fatal
  deriving DecidableEq

/-- The `while self._waiting_readers` loop of `Channel.put`: pop readers and
offer `v`; on acceptance return the remaining readers (`some rest`), on
exhaustion `none`. -/
def offerLoop (v : V) : Heap V → List Nat → Heap V × Option (List Nat)
  | h, [] => (h, none)
  | h, sid :: rest =>
      match Selector.offer h sid v with
      | (true, h') => (h', some rest)
      | (false, h') => offerLoop v h' rest

/-- `len(self._pending) >= self._max`; with the unbounded `{}` sentinel the
comparison never holds. -/
def Channel.capReached (c : Channel V) : Bool :=
  match c.max with
  | none => false
  | some k => decide (k ≤ c.pending.length)

/-- `Channel.put(value, blocking)`; `eid` is the event id used if this call
must register as a blocked writer. The fatal raise happens before any
mutation. -/
def Channel.put (c : Channel V) (h : Heap V) (v : V) (blocking : Bool) (eid : Nat) :
    Channel V × Heap V × PutOutcome :=
  if !c.waiting_readers.isEmpty && !c.pending.isEmpty then (c, h, PutOutcome.fatal)
  else
    match offerLoop v h c.waiting_readers with
    | (h', some rest) => ({ c with waiting_readers := rest }, h', PutOutcome.delivered)
    | (h', none) =>
        let c' := { c with waiting_readers := ([] : List Nat) }
        if c'.capReached then
          if blocking then
            ({ c' with waiting_writers := c'.waiting_writers ++ [(eid, v)] }, h',
             PutOutcome.blocked eid)
          else (c', h', PutOutcome.full)
        else ({ c' with pending := c'.pending ++ [v] }, h', PutOutcome.buffered)

/-- Outcome of a `get` call: returned a value through the internal selector
(`returned none` would mean the selector was set with no value, unreachable),
registered the internal selector and would block on it, returned `None`
because an external selector was supplied, or raised `Channel.Empty`. -/
inductive GetOutcome (V : Type) where
  | returned (v : Option V)
  | wouldBlock (sid : Nat)
  | externalNone
  | empty
  deriving DecidableEq

/-- Result of a `get` call: its outcome plus the writer event signalled by the
housecleaning, if any. -/
structure GetRes (V : Type) where
  outcome : GetOutcome V
  signalled : Option Nat
  deriving DecidableEq

/-- The stale-reader compaction at the top of `Channel.get`, performed only
when an external selector is supplied: increment `_stale` and, past
`_max_stale`, keep only the non-stale readers and reset the counter. -/
def Channel.staleStep (c : Channel V) (h : Heap V) : Channel V :=
  if c.stale + 1 > maxStale then
    { c with waiting_readers := c.waiting_readers.filter (fun r => !(Selector.stale h r)),
             stale := 0 }
  else { c with stale := c.stale + 1 }

/-- End of `Channel.get`: with an internal selector the function returns
`internal_selector.get()`; with an external one it returns `None`. -/
def Channel.finish (internal : Bool) (h : Heap V) (sid : Nat) (sig : Option Nat) : GetRes V :=
  if internal then { outcome := GetOutcome.returned (Selector.get h sid), signalled := sig }
  else { outcome := GetOutcome.externalNone, signalled := sig }

/-- Body of `Channel.get` after the stale step and selector setup: `sid` is
the selector's heap id, `internal` whether this call created it. -/
def Channel.getBody (c : Channel V) (h : Heap V) (blocking : Bool) (sid : Nat)
    (internal : Bool) : Channel V × Heap V × GetRes V :=
  match c.pending with
  | qv :: prest =>
      match Selector.offer h sid qv with
      | (false, h') =>
          ({ c with pending := qv :: prest }, h', ⟨GetOutcome.externalNone, none⟩)
      | (true, h') =>
          match c.waiting_writers with
          | (we, wv) :: wrest =>
              ({ c with pending := prest ++ [wv], waiting_writers := wrest }, h',
               Channel.finish internal h' sid (some we))
          | [] => ({ c with pending := prest }, h', Channel.finish internal h' sid none)
  | [] =>
      match c.waiting_writers with
      | (we, wv) :: wrest =>
          match Selector.offer h sid wv with
          | (false, h') =>
              ({ c with waiting_writers := (we, wv) :: wrest }, h',
               ⟨GetOutcome.externalNone, none⟩)
          | (true, h') =>
              ({ c with waiting_writers := wrest }, h',
               Channel.finish internal h' sid (some we))
      | [] =>
          if blocking then
            ({ c with waiting_readers := c.waiting_readers ++ [sid] }, h,
             ⟨if internal then GetOutcome.wouldBlock sid else GetOutcome.externalNone, none⟩)
          else (c, h, ⟨GetOutcome.empty, none⟩)

/-- `Channel.get(blocking, selector)`: with an external selector run the stale
step then the body; otherwise allocate a fresh internal selector at the end of
the heap and run the body with it. -/
def Channel.get (c : Channel V) (h : Heap V) (blocking : Bool) (ext : Option Nat) :
    Channel V × Heap V × GetRes V :=
  match ext with
  | some sid => Channel.getBody (Channel.staleStep c h) h blocking sid false
  | none => Channel.getBody c (h ++ [Selector.mk0]) blocking h.length true

/-- The registration loop of blocking `channel_select`: call
`channel.get(selector=sid)` on every channel in list order. -/
def registerAll (sid : Nat) : List (Channel V) → Heap V → List (Channel V) × Heap V
  | [], h => ([], h)
  | c :: cs, h =>
      match Channel.get c h true (some sid) with
      | (c', h', _) =>
          match registerAll sid cs h' with
          | (cs', h'') => (c' :: cs', h'')

/-- Blocking `channel_select(channels)`: allocate one shared `Selector`,
register it on every channel in order, then return `selector.get()`
(`none` = the call would still be blocked). -/
def channel_select_blocking (cs : List (Channel V)) (h : Heap V) :
    List (Channel V) × Heap V × Option V :=
  let sid := h.length
  match registerAll sid cs (h ++ [Selector.mk0]) with
  | (cs', h') => (cs', h', Selector.get h' sid)

/-- Non-blocking `channel_select(channels, blocking=False)`: try each
channel's non-blocking `get` in list order, catching `Empty`; `none` models
raising `Empty` after the loop. Outcomes other than `returned`/`empty` cannot
arise from a non-blocking internal get. -/
def channel_select_nonblocking : List (Channel V) → Heap V → List (Channel V) × Heap V × Option V
  | [], h => ([], h, none)
  | c :: cs, h =>
      match Channel.get c h false none with
      | (c', h', r) =>
          match r.outcome with
          | GetOutcome.returned v => (c' :: cs, h', v)
          | GetOutcome.empty =>
              match channel_select_nonblocking cs h' with
              | (cs', h'', out) => (c' :: cs', h'', out)
          | _ => (c' :: cs, h', none)

/-- Run `n` sequential blocking `channel_select` calls over the same channel
list, collecting each call's result. -/
def runSelects : Nat → List (Channel V) → Heap V → List (Channel V) × Heap V × List (Option V)
  | 0, cs, h => (cs, h, [])
  | n + 1, cs, h =>
      match channel_select_blocking cs h with
      | (cs', h', r) =>
          match runSelects n cs' h' with
          | (cs'', h'', rs) => (cs'', h'', r :: rs)

/-- A channel holding exactly one buffered value: a fresh unbounded channel
after a single `put`. -/
def mkLoaded (v : V) : Channel V := (Channel.put (Channel.init none) [] v true 0).1

/-- Global state for operation sequences: all channels, the selector heap, and
a counter supplying fresh writer-event ids. -/
structure GState (V : Type) where
  channels : List (Channel V)
  heap : Heap V
  nextEvent : Nat

/-- One API operation: a `put` or `get` on channel `cid` (the `get` optionally
with an external selector id), or allocation of a fresh shared `Selector`. -/
inductive Op (V : Type) where
  | put (cid : Nat) (v : V) (blocking : Bool)
  | get (cid : Nat) (blocking : Bool) (ext : Option Nat)
  | alloc

/-- Execute one operation's lock-held portion on the global state. -/
def step (s : GState V) : Op V → GState V
  | Op.put cid v b =>
      match s.channels[cid]? with
      | none => s
      | some c =>
          match Channel.put c s.heap v b s.nextEvent with
          | (c', h', _) => ⟨s.channels.set cid c', h', s.nextEvent + 1⟩
  | Op.get cid b ext =>
      match s.channels[cid]? with
      | none => s
      | some c =>
          match Channel.get c s.heap b ext with
          | (c', h', _) => ⟨s.channels.set cid c', h', s.nextEvent⟩
  | Op.alloc => ⟨s.channels, s.heap ++ [Selector.mk0], s.nextEvent⟩

/-- Execute a sequence of operations. -/
def run (s : GState V) : List (Op V) → GState V
  | [] => s
  | op :: ops => run (step s op) ops

/-- Invariant I1 for one channel: no waiting readers while values are
pending. -/
def I1 (c : Channel V) : Prop := c.pending = [] ∨ c.waiting_readers = []

/-- Invariant I1 for every channel of the global state. -/
def I1All (s : GState V) : Prop := ∀ c ∈ s.channels, I1 c

/-- Whether a put outcome is the fatal invariant-violation raise. -/
def isFatal : PutOutcome → Bool
  | PutOutcome.fatal => true
  | _ => false

/-- Whether executing `op` next from state `s` would hit the fatal
invariant-violation raise at the top of `put`. -/
def opFatal (s : GState V) : Op V → Bool
  | Op.put cid v b =>
      match s.channels[cid]? with
      | some c => isFatal (Channel.put c s.heap v b s.nextEvent).2.2
      | none => false
  | _ => false

/-- Initial global state: freshly constructed channels with the given
capacities, no selectors. -/
def initG (caps : List (Option Nat)) : GState V := ⟨caps.map Channel.init, [], 0⟩

/-- Fold non-blocking puts; the flag records whether every put was buffered. -/
def putsNB : Channel V → Heap V → List V → Channel V × Heap V × Bool
  | c, h, [] => (c, h, true)
  | c, h, v :: vs =>
      match Channel.put c h v false 0 with
      | (c', h', PutOutcome.buffered) => putsNB c' h' vs
      | (c', h', _) => (c', h', false)

/-- Fold blocking puts (outcomes discarded; on an unbounded channel none can
block). -/
def putsB : Channel V → Heap V → List V → Channel V × Heap V
  | c, h, [] => (c, h)
  | c, h, v :: vs =>
      match Channel.put c h v true 0 with
      | (c', h', _) => putsB c' h' vs

/-- Perform `n` blocking internal gets, collecting each returned value
(`none` for a call that did not return a value). -/
def getsN : Channel V → Heap V → Nat → Channel V × Heap V × List (Option V)
  | c, h, 0 => (c, h, [])
  | c, h, n + 1 =>
      match Channel.get c h true none with
      | (c', h', r) =>
          match getsN c' h' n with
          | (c'', h'', rs) =>
              (c'', h'',
               (match r.outcome with
                | GetOutcome.returned v => v
                | _ => none) :: rs)

/-- Modelled from the spec's description of non-blocking select ("return the
first value obtained: the head value of the first channel with something
available"), to be compared with `channel_select_nonblocking`. -/
def specFirstAvailable : List (Channel V) → Option V
  | [] => none
  | c :: cs =>
      match c.pending with
      | v :: _ => some v
      | [] =>
          match c.waiting_writers with
          | (_, v) :: _ => some v
          | [] => specFirstAvailable cs

/-- A channel with nothing to hand out and only already-set selectors queued
as readers. -/
def Drained (h : Heap V) (c : Channel V) : Prop :=
  c.pending = [] ∧ c.waiting_writers = [] ∧
    ∀ r ∈ c.waiting_readers, Selector.stale h r = true

/-- Like `Drained`, but the reader queue may also hold the distinguished
selector `sid` (the one a select in progress is registering). -/
def DrainedExc (h : Heap V) (sid : Nat) (c : Channel V) : Prop :=
  c.pending = [] ∧ c.waiting_writers = [] ∧
    ∀ r ∈ c.waiting_readers, Selector.stale h r = true ∨ r = sid

/-- A channel holding exactly one buffered value and no waiters. -/
def Loaded (v : V) (c : Channel V) : Prop :=
  c.pending = [v] ∧ c.waiting_writers = [] ∧ c.waiting_readers = []

/-! ### Heap and selector lemmas -/

theorem heapGet_ge : ∀ (h : Heap V) (i : Nat), h.length ≤ i → heapGet h i = Selector.mk0
  | [], _, _ => rfl
  | _ :: _, 0, hle => absurd hle (by simp)
  | _ :: t, i + 1, hle => heapGet_ge t i (Nat.le_of_succ_le_succ hle)

theorem heapGet_append_lt :
    ∀ (h l : Heap V) (i : Nat), i < h.length → heapGet (h ++ l) i = heapGet h i
  | [], _, i, hlt => absurd hlt (by simp)
  | _ :: _, _, 0, _ => rfl
  | _ :: t, l, i + 1, hlt => heapGet_append_lt t l i (Nat.lt_of_succ_lt_succ hlt)

theorem heapGet_append_len :
    ∀ (h : Heap V) (s : Selector V) (l : Heap V), heapGet (h ++ s :: l) h.length = s
  | [], _, _ => rfl
  | _ :: t, s, l => heapGet_append_len t s l

theorem heapSet_length : ∀ (h : Heap V) (i : Nat) (s : Selector V),
    (heapSet h i s).length = h.length
  | [], _, _ => rfl
  | _ :: _, 0, _ => rfl
  | _ :: t, i + 1, s => by simpa [heapSet] using heapSet_length t i s

theorem heapGet_heapSet_self : ∀ (h : Heap V) (i : Nat) (s : Selector V), i < h.length →
    heapGet (heapSet h i s) i = s
  | [], _, _, hlt => absurd hlt (by simp)
  | _ :: _, 0, _, _ => rfl
  | _ :: t, i + 1, s, hlt => heapGet_heapSet_self t i s (Nat.lt_of_succ_lt_succ hlt)

theorem heapGet_heapSet_ne : ∀ (h : Heap V) (i j : Nat) (s : Selector V), i ≠ j →
    heapGet (heapSet h i s) j = heapGet h j
  | [], _, _, _, _ => rfl
  | _ :: _, 0, 0, _, hne => absurd rfl hne
  | _ :: _, 0, _ + 1, _, _ => rfl
  | _ :: _, _ + 1, 0, _, _ => rfl
  | _ :: t, i + 1, j + 1, s, hne =>
      heapGet_heapSet_ne t i j s (fun he => hne (congrArg Nat.succ he))

theorem stale_lt (h : Heap V) (i : Nat) (hs : Selector.stale h i = true) : i < h.length := by
  by_contra hge
  have : heapGet h i = Selector.mk0 := heapGet_ge h i (Nat.le_of_not_lt hge)
  rw [Selector.stale, this] at hs
  exact Bool.noConfusion hs

theorem stale_append (h l : Heap V) (i : Nat) (hs : Selector.stale h i = true) :
    Selector.stale (h ++ l) i = true := by
  rw [Selector.stale, heapGet_append_lt h l i (stale_lt h i hs)]
  exact hs

theorem stale_heapSet (h : Heap V) (i j : Nat) (w : Option V)
    (hs : Selector.stale h i = true) :
    Selector.stale (heapSet h j ⟨true, w⟩) i = true := by
  rcases Decidable.em (j = i) with he | hne
  · subst he
    rw [Selector.stale, heapGet_heapSet_self h j _ (stale_lt h j hs)]
  · rw [Selector.stale, heapGet_heapSet_ne h j i _ hne]
    exact hs

theorem offer_of_stale (h : Heap V) (sid : Nat) (v : V)
    (hs : Selector.stale h sid = true) : Selector.offer h sid v = (false, h) := by
  rw [Selector.offer]
  rw [Selector.stale] at hs
  simp [hs]

theorem offer_of_unset (h : Heap V) (sid : Nat) (v : V)
    (hs : Selector.stale h sid = false) :
    Selector.offer h sid v = (true, heapSet h sid ⟨true, some v⟩) := by
  rw [Selector.offer]
  rw [Selector.stale] at hs
  simp [hs]

/-! ### staleStep lemmas -/

theorem staleStep_pending (c : Channel V) (h : Heap V) :
    (Channel.staleStep c h).pending = c.pending := by
  rw [Channel.staleStep]; split <;> rfl

theorem staleStep_writers (c : Channel V) (h : Heap V) :
    (Channel.staleStep c h).waiting_writers = c.waiting_writers := by
  rw [Channel.staleStep]; split <;> rfl

theorem staleStep_max (c : Channel V) (h : Heap V) :
    (Channel.staleStep c h).max = c.max := by
  rw [Channel.staleStep]; split <;> rfl

theorem staleStep_readers (c : Channel V) (h : Heap V) :
    (Channel.staleStep c h).waiting_readers =
      if c.stale + 1 > maxStale then
        c.waiting_readers.filter (fun r => !(Selector.stale h r))
      else c.waiting_readers := by
  rw [Channel.staleStep]; split <;> simp_all

theorem staleStep_stale (c : Channel V) (h : Heap V) :
    (Channel.staleStep c h).stale = if c.stale + 1 > maxStale then 0 else c.stale + 1 := by
  rw [Channel.staleStep]; split <;> simp_all

theorem staleStep_readers_mem (c : Channel V) (h : Heap V) (r : Nat)
    (hr : r ∈ (Channel.staleStep c h).waiting_readers) : r ∈ c.waiting_readers := by
  rw [staleStep_readers] at hr
  split at hr
  · exact List.mem_of_mem_filter hr
  · exact hr

/-- C6: the first `offer` on a fresh selector succeeds and records the value;
every later `offer` returns failure and changes nothing; once set, `get`
returns the first offered value without blocking, and repeated offers never
disturb it. -/
theorem selector_single_assignment (h : Heap V) (sid : Nat) (v : V)
    (hlt : sid < h.length) (hunset : Selector.stale h sid = false) :
    (Selector.offer h sid v).1 = true ∧
    Selector.get (Selector.offer h sid v).2 sid = some v ∧
    Selector.stale (Selector.offer h sid v).2 sid = true ∧
    (∀ w, Selector.offer (Selector.offer h sid v).2 sid w =
      (false, (Selector.offer h sid v).2)) ∧
    (∀ w, Selector.get (Selector.offer (Selector.offer h sid v).2 sid w).2 sid = some v) := by
  rw [offer_of_unset h sid v hunset]
  have hget : heapGet (heapSet h sid ⟨true, some v⟩) sid = ⟨true, some v⟩ :=
    heapGet_heapSet_self h sid _ hlt
  have hset : Selector.stale (heapSet h sid ⟨true, some v⟩) sid = true := by
    rw [Selector.stale, hget]
  refine ⟨rfl, ?_, hset, ?_, ?_⟩
  · rw [Selector.get, hget]
  · intro w; exact offer_of_stale _ sid w hset
  · intro w; rw [offer_of_stale _ sid w hset, Selector.get, hget]

/-- Witness for C6 at a concrete heap. -/
theorem selector_single_assignment_witness :
    (0 < 1 ∧ Selector.stale ([Selector.mk0] : Heap Nat) 0 = false) ∧
    Selector.get (Selector.offer ([Selector.mk0] : Heap Nat) 0 7).2 0 = some 7 :=
  ⟨⟨by decide, by decide⟩,
   (selector_single_assignment [Selector.mk0] 0 7 (by decide) (by decide)).2.1⟩

/-! ### Branch lemmas for `Channel.getBody` -/

theorem finish_internal (h : Heap V) (sid : Nat) (sig : Option Nat) :
    Channel.finish true h sid sig = ⟨GetOutcome.returned (Selector.get h sid), sig⟩ := rfl

theorem finish_external (h : Heap V) (sid : Nat) (sig : Option Nat) :
    Channel.finish false h sid sig = ⟨GetOutcome.externalNone, sig⟩ := rfl

theorem getBody_pending_refuse (mx : Option Nat) (qv : V) (prest : List V)
    (ww : List (Nat × V)) (wr : List Nat) (st : Nat) (h : Heap V) (b : Bool) (sid : Nat)
    (itl : Bool) (hs : Selector.stale h sid = true) :
    Channel.getBody ⟨mx, qv :: prest, ww, wr, st⟩ h b sid itl =
      (⟨mx, qv :: prest, ww, wr, st⟩, h, ⟨GetOutcome.externalNone, none⟩) := by
  simp [Channel.getBody, offer_of_stale h sid qv hs]

theorem getBody_pending_accept_nw (mx : Option Nat) (qv : V) (prest : List V)
    (wr : List Nat) (st : Nat) (h : Heap V) (b : Bool) (sid : Nat) (itl : Bool)
    (hs : Selector.stale h sid = false) :
    Channel.getBody ⟨mx, qv :: prest, [], wr, st⟩ h b sid itl =
      (⟨mx, prest, [], wr, st⟩, heapSet h sid ⟨true, some qv⟩,
       Channel.finish itl (heapSet h sid ⟨true, some qv⟩) sid none) := by
  simp [Channel.getBody, offer_of_unset h sid qv hs]

theorem getBody_pending_accept_w (mx : Option Nat) (qv : V) (prest : List V)
    (we : Nat) (wv : V) (wrest : List (Nat × V)) (wr : List Nat) (st : Nat)
    (h : Heap V) (b : Bool) (sid : Nat) (itl : Bool)
    (hs : Selector.stale h sid = false) :
    Channel.getBody ⟨mx, qv :: prest, (we, wv) :: wrest, wr, st⟩ h b sid itl =
      (⟨mx, prest ++ [wv], wrest, wr, st⟩, heapSet h sid ⟨true, some qv⟩,
       Channel.finish itl (heapSet h sid ⟨true, some qv⟩) sid (some we)) := by
  simp [Channel.getBody, offer_of_unset h sid qv hs]

theorem getBody_writer_refuse (mx : Option Nat) (we : Nat) (wv : V)
    (wrest : List (Nat × V)) (wr : List Nat) (st : Nat) (h : Heap V) (b : Bool)
    (sid : Nat) (itl : Bool) (hs : Selector.stale h sid = true) :
    Channel.getBody ⟨mx, [], (we, wv) :: wrest, wr, st⟩ h b sid itl =
      (⟨mx, [], (we, wv) :: wrest, wr, st⟩, h, ⟨GetOutcome.externalNone, none⟩) := by
  simp [Channel.getBody, offer_of_stale h sid wv hs]

theorem getBody_writer_accept (mx : Option Nat) (we : Nat) (wv : V)
    (wrest : List (Nat × V)) (wr : List Nat) (st : Nat) (h : Heap V) (b : Bool)
    (sid : Nat) (itl : Bool) (hs : Selector.stale h sid = false) :
    Channel.getBody ⟨mx, [], (we, wv) :: wrest, wr, st⟩ h b sid itl =
      (⟨mx, [], wrest, wr, st⟩, heapSet h sid ⟨true, some wv⟩,
       Channel.finish itl (heapSet h sid ⟨true, some wv⟩) sid (some we)) := by
  simp [Channel.getBody, offer_of_unset h sid wv hs]

theorem getBody_empty (mx : Option Nat) (wr : List Nat) (st : Nat) (h : Heap V)
    (b : Bool) (sid : Nat) (itl : Bool) :
    Channel.getBody (⟨mx, [], [], wr, st⟩ : Channel V) h b sid itl =
      if b then
        (⟨mx, [], [], wr ++ [sid], st⟩, h,
         ⟨if itl then GetOutcome.wouldBlock sid else GetOutcome.externalNone, none⟩)
      else (⟨mx, [], [], wr, st⟩, h, ⟨GetOutcome.empty, none⟩) := by
  simp [Channel.getBody]

theorem fresh_unset (h : Heap V) : Selector.stale (h ++ [Selector.mk0]) h.length = false := by
  rw [Selector.stale, heapGet_append_len]; rfl

theorem fresh_set_get (h : Heap V) (v : V) :
    Selector.get (heapSet (h ++ [Selector.mk0]) h.length ⟨true, some v⟩) h.length = some v := by
  have hlt : h.length < (h ++ [Selector.mk0]).length := by simp
  rw [Selector.get, heapGet_heapSet_self _ _ _ hlt]

/-- C5: a non-blocking internal `get` raises `Empty` exactly when both
`pending` and `waiting_writers` are empty; raising `Empty` leaves every
channel field unchanged; otherwise the call returns a value. -/
theorem empty_condition_atomic (c : Channel V) (h : Heap V) :
    ((Channel.get c h false none).2.2.outcome = GetOutcome.empty ↔
      (c.pending = [] ∧ c.waiting_writers = [])) ∧
    (c.pending = [] ∧ c.waiting_writers = [] → (Channel.get c h false none).1 = c) ∧
    ((c.pending ≠ [] ∨ c.waiting_writers ≠ []) →
      ∃ v, (Channel.get c h false none).2.2.outcome = GetOutcome.returned (some v)) := by
  obtain ⟨mx, pnd, ww, wr, st⟩ := c
  rw [Channel.get]
  match pnd, ww with
  | [], [] =>
      rw [getBody_empty]
      simp
  | [], (we, wv) :: wrest =>
      rw [getBody_writer_accept mx we wv wrest wr st _ false _ true (fresh_unset h)]
      simp [finish_internal, fresh_set_get]
  | qv :: prest, [] =>
      rw [getBody_pending_accept_nw mx qv prest wr st _ false _ true (fresh_unset h)]
      simp [finish_internal, fresh_set_get]
  | qv :: prest, (we, wv) :: wrest =>
      rw [getBody_pending_accept_w mx qv prest we wv wrest wr st _ false _ true
        (fresh_unset h)]
      simp [finish_internal, fresh_set_get]

/-- Witness for C5: the Empty case at a concrete empty channel, and the
value case at a concrete loaded channel. -/
theorem empty_condition_atomic_witness :
    ((Channel.get (⟨none, [], [], [], 0⟩ : Channel Nat) [] false none).1 =
      ⟨none, [], [], [], 0⟩) ∧
    ∃ v, (Channel.get (⟨none, [3], [], [], 0⟩ : Channel Nat) [] false none).2.2.outcome =
      GetOutcome.returned (some v) :=
  ⟨(empty_condition_atomic ⟨none, [], [], [], 0⟩ []).2.1 ⟨rfl, rfl⟩,
   (empty_condition_atomic ⟨none, [3], [], [], 0⟩ []).2.2 (Or.inl (by decide))⟩

theorem getBody_stale (c : Channel V) (h : Heap V) (b : Bool) (sid : Nat) (itl : Bool) :
    (Channel.getBody c h b sid itl).1.stale = c.stale := by
  obtain ⟨mx, pnd, ww, wr, st⟩ := c
  match pnd, ww with
  | [], [] => rw [getBody_empty]; split <;> rfl
  | [], (we, wv) :: wrest =>
      rcases hcase : Selector.stale h sid with hs | hs
      · rw [getBody_writer_accept mx we wv wrest wr st h b sid itl hcase]
      · rw [getBody_writer_refuse mx we wv wrest wr st h b sid itl hcase]
  | qv :: prest, [] =>
      rcases hcase : Selector.stale h sid with hs | hs
      · rw [getBody_pending_accept_nw mx qv prest wr st h b sid itl hcase]
      · rw [getBody_pending_refuse mx qv prest _ wr st h b sid itl hcase]
  | qv :: prest, (we, wv) :: wrest =>
      rcases hcase : Selector.stale h sid with hs | hs
      · rw [getBody_pending_accept_w mx qv prest we wv wrest wr st h b sid itl hcase]
      · rw [getBody_pending_refuse mx qv prest _ wr st h b sid itl hcase]

theorem getBody_readers (c : Channel V) (h : Heap V) (b : Bool) (sid : Nat) (itl : Bool) :
    (Channel.getBody c h b sid itl).1.waiting_readers =
      if c.pending.isEmpty && c.waiting_writers.isEmpty && b then
        c.waiting_readers ++ [sid]
      else c.waiting_readers := by
  obtain ⟨mx, pnd, ww, wr, st⟩ := c
  match pnd, ww with
  | [], [] =>
      rw [getBody_empty]
      rcases b with hb | hb <;> simp
  | [], (we, wv) :: wrest =>
      rcases hcase : Selector.stale h sid with hs | hs
      · rw [getBody_writer_accept mx we wv wrest wr st h b sid itl hcase]; simp
      · rw [getBody_writer_refuse mx we wv wrest wr st h b sid itl hcase]; simp
  | qv :: prest, [] =>
      rcases hcase : Selector.stale h sid with hs | hs
      · rw [getBody_pending_accept_nw mx qv prest wr st h b sid itl hcase]; simp
      · rw [getBody_pending_refuse mx qv prest _ wr st h b sid itl hcase]; simp
  | qv :: prest, (we, wv) :: wrest =>
      rcases hcase : Selector.stale h sid with hs | hs
      · rw [getBody_pending_accept_w mx qv prest we wv wrest wr st h b sid itl hcase]; simp
      · rw [getBody_pending_refuse mx qv prest _ wr st h b sid itl hcase]; simp

/-- C7: a `get` carrying an external selector that is already set returns
nothing to its caller, leaves `pending` and `waiting_writers` exactly as they
were (the popped head is pushed back), leaves the selector heap untouched and
signals no writer event, whenever the channel had data or a waiting writer. -/
theorem getBody_refuse_frame (c : Channel V) (h : Heap V) (b : Bool) (sid : Nat)
    (itl : Bool) (hset : Selector.stale h sid = true)
    (havail : c.pending ≠ [] ∨ c.waiting_writers ≠ []) :
    Channel.getBody c h b sid itl = (c, h, ⟨GetOutcome.externalNone, none⟩) := by
  obtain ⟨mx, pnd, ww, wr, st⟩ := c
  match pnd, ww, havail with
  | qv :: prest, ww, _ =>
      exact getBody_pending_refuse mx qv prest ww wr st h b sid itl hset
  | [], (we, wv) :: wrest, _ =>
      exact getBody_writer_refuse mx we wv wrest wr st h b sid itl hset
  | [], [], havail =>
      rcases havail with hc | hc <;> exact absurd rfl hc

theorem refusal_pushback_preserves_state (c : Channel V) (h : Heap V) (sid : Nat) (b : Bool)
    (hset : Selector.stale h sid = true)
    (havail : c.pending ≠ [] ∨ c.waiting_writers ≠ []) :
    (Channel.get c h b (some sid)).1.pending = c.pending ∧
    (Channel.get c h b (some sid)).1.waiting_writers = c.waiting_writers ∧
    (Channel.get c h b (some sid)).2.1 = h ∧
    (Channel.get c h b (some sid)).2.2 = ⟨GetOutcome.externalNone, none⟩ := by
  have havail' : (Channel.staleStep c h).pending ≠ [] ∨
      (Channel.staleStep c h).waiting_writers ≠ [] := by
    rw [staleStep_pending, staleStep_writers]; exact havail
  rw [Channel.get, getBody_refuse_frame _ _ _ _ _ hset havail']
  exact ⟨staleStep_pending c h, staleStep_writers c h, rfl, rfl⟩

/-- Witness for C7 at a concrete channel and set selector. -/
theorem refusal_pushback_preserves_state_witness :
    (Selector.stale ([⟨true, some 9⟩] : Heap Nat) 0 = true ∧
      ([5] : List Nat) ≠ [] ∨ False) ∧
    (Channel.get (⟨none, [5], [], [], 0⟩ : Channel Nat) [⟨true, some 9⟩] true
        (some 0)).1.pending = [5] :=
  ⟨Or.inl ⟨rfl, by decide⟩,
   (refusal_pushback_preserves_state ⟨none, [5], [], [], 0⟩ [⟨true, some 9⟩] 0 true rfl
      (Or.inl (by decide))).1⟩

/-- C8: every external-selector `get` increments the stale counter, resetting
it and compacting `waiting_readers` (dropping exactly the set selectors, in
order) precisely when the incremented counter passes the threshold 256; apart
from that compaction, `waiting_readers` only ever gains the registered
selector at its tail, and internal-selector calls never touch the counter. -/
theorem stale_compaction_spec (c : Channel V) (h : Heap V) (b : Bool) (sid : Nat) :
    maxStale = 256 ∧
    ((Channel.get c h b (some sid)).1.stale =
      if c.stale + 1 > maxStale then 0 else c.stale + 1) ∧
    ((Channel.get c h b (some sid)).1.waiting_readers =
      (if c.pending.isEmpty && c.waiting_writers.isEmpty && b then
        (if c.stale + 1 > maxStale then
          c.waiting_readers.filter (fun r => !(Selector.stale h r))
        else c.waiting_readers) ++ [sid]
      else
        (if c.stale + 1 > maxStale then
          c.waiting_readers.filter (fun r => !(Selector.stale h r))
        else c.waiting_readers))) ∧
    ((Channel.get c h b none).1.stale = c.stale) ∧
    ((Channel.get c h b none).1.waiting_readers =
      if c.pending.isEmpty && c.waiting_writers.isEmpty && b then
        c.waiting_readers ++ [h.length]
      else c.waiting_readers) := by
  refine ⟨rfl, ?_, ?_, ?_, ?_⟩
  · rw [Channel.get, getBody_stale, staleStep_stale]
  · rw [Channel.get, getBody_readers, staleStep_pending, staleStep_writers,
      staleStep_readers]
  · rw [Channel.get, getBody_stale]
  · rw [Channel.get, getBody_readers]

/-! ### Branch lemmas for `Channel.put` -/

theorem put_fatal_eq (mx : Option Nat) (qv : V) (prest : List V) (ww : List (Nat × V))
    (r : Nat) (rrest : List Nat) (st : Nat) (h : Heap V) (v : V) (b : Bool) (eid : Nat) :
    Channel.put ⟨mx, qv :: prest, ww, r :: rrest, st⟩ h v b eid =
      (⟨mx, qv :: prest, ww, r :: rrest, st⟩, h, PutOutcome.fatal) := by
  simp [Channel.put]

theorem put_no_readers (mx : Option Nat) (pnd : List V) (ww : List (Nat × V)) (st : Nat)
    (h : Heap V) (v : V) (b : Bool) (eid : Nat) :
    Channel.put (⟨mx, pnd, ww, [], st⟩ : Channel V) h v b eid =
      if Channel.capReached (⟨mx, pnd, ww, [], st⟩ : Channel V) then
        if b then (⟨mx, pnd, ww ++ [(eid, v)], [], st⟩, h, PutOutcome.blocked eid)
        else (⟨mx, pnd, ww, [], st⟩, h, PutOutcome.full)
      else (⟨mx, pnd ++ [v], ww, [], st⟩, h, PutOutcome.buffered) := rfl

theorem put_empty_pending_delivered (mx : Option Nat) (ww : List (Nat × V)) (wr : List Nat)
    (st : Nat) (h h' : Heap V) (v : V) (b : Bool) (eid : Nat) (rest : List Nat)
    (hol : offerLoop v h wr = (h', some rest)) :
    Channel.put (⟨mx, [], ww, wr, st⟩ : Channel V) h v b eid =
      (⟨mx, [], ww, rest, st⟩, h', PutOutcome.delivered) := by
  simp [Channel.put, hol]

theorem put_empty_pending_none (mx : Option Nat) (ww : List (Nat × V)) (wr : List Nat)
    (st : Nat) (h h' : Heap V) (v : V) (b : Bool) (eid : Nat)
    (hol : offerLoop v h wr = (h', none)) :
    Channel.put (⟨mx, [], ww, wr, st⟩ : Channel V) h v b eid =
      if Channel.capReached (⟨mx, [], ww, [], st⟩ : Channel V) then
        if b then (⟨mx, [], ww ++ [(eid, v)], [], st⟩, h', PutOutcome.blocked eid)
        else (⟨mx, [], ww, [], st⟩, h', PutOutcome.full)
      else (⟨mx, [v], ww, [], st⟩, h', PutOutcome.buffered) := by
  simp only [Channel.put, List.isEmpty_nil, Bool.not_true, Bool.and_false,
    Bool.false_eq_true, if_false, hol, List.nil_append]

theorem offerLoop_none (v : V) (h h' : Heap V) (rs : List Nat)
    (he : offerLoop v h rs = (h', none)) :
    h' = h ∧ ∀ sid ∈ rs, Selector.stale h sid = true := by
  induction rs generalizing h with
  | nil =>
      rw [offerLoop] at he
      injection he with h1 h2
      exact ⟨h1.symm, by simp⟩
  | cons sid rest ih =>
      rw [offerLoop] at he
      rcases hcase : Selector.stale h sid with hs | hs
      · rw [offer_of_unset h sid v hcase] at he
        exact absurd (congrArg Prod.snd he) (by simp)
      · rw [offer_of_stale h sid v hcase] at he
        obtain ⟨hh, hall⟩ := ih h he
        refine ⟨hh, fun s hmem => ?_⟩
        rcases List.mem_cons.mp hmem with hm | hm
        · rw [hm]; exact hcase
        · exact hall s hm

theorem put_full_spec (c : Channel V) (h : Heap V) (v : V) (eid : Nat)
    (hfull : (Channel.put c h v false eid).2.2 = PutOutcome.full) :
    Channel.put c h v false eid = ({ c with waiting_readers := [] }, h, PutOutcome.full) ∧
    ∀ sid ∈ c.waiting_readers, Selector.stale h sid = true := by
  obtain ⟨mx, pnd, ww, wr, st⟩ := c
  match pnd, wr with
  | qv :: prest, r :: rrest =>
      rw [put_fatal_eq] at hfull
      exact absurd hfull (by simp)
  | qv :: prest, [] =>
      rw [put_no_readers] at hfull ⊢
      by_cases hcap : Channel.capReached (⟨mx, qv :: prest, ww, [], st⟩ : Channel V) = true
      · rw [if_pos hcap, if_neg (by simp)] at hfull ⊢
        exact ⟨rfl, by simp⟩
      · rw [if_neg hcap] at hfull
        exact absurd hfull (by simp)
  | [], wr =>
      rcases hol : offerLoop v h wr with ⟨h2, orest⟩
      rcases orest with _ | rest
      · obtain ⟨hh, hall⟩ := offerLoop_none v h h2 wr hol
        rw [hh] at hol
        rw [put_empty_pending_none mx ww wr st h h v false eid hol] at hfull ⊢
        by_cases hcap : Channel.capReached (⟨mx, [], ww, [], st⟩ : Channel V) = true
        · rw [if_pos hcap, if_neg (by simp)] at hfull ⊢
          exact ⟨rfl, hall⟩
        · rw [if_neg hcap] at hfull
          exact absurd hfull (by simp)
      · rw [put_empty_pending_delivered mx ww wr st h h2 v false eid rest hol] at hfull
        exact absurd hfull (by simp)

/-- C10: when a non-blocking `put` raises `Full`, the value is not stored and
`pending`/`waiting_writers`/heap are untouched, but the reader queue has been
drained: every selector that was queued was already set and has been
permanently removed before the raise. -/
theorem full_not_side_effect_free (c : Channel V) (h : Heap V) (v : V) (eid : Nat)
    (hfull : (Channel.put c h v false eid).2.2 = PutOutcome.full) :
    (Channel.put c h v false eid).1.pending = c.pending ∧
    (Channel.put c h v false eid).1.waiting_writers = c.waiting_writers ∧
    (Channel.put c h v false eid).1.waiting_readers = [] ∧
    (Channel.put c h v false eid).2.1 = h ∧
    ∀ sid ∈ c.waiting_readers, Selector.stale h sid = true := by
  obtain ⟨heq, hall⟩ := put_full_spec c h v eid hfull
  rw [heq]
  exact ⟨rfl, rfl, rfl, rfl, hall⟩

/-- Witness for C10: a capacity-0 channel with one stale queued reader;
the failed put drains the reader queue, so the state after `Full` differs
from the state before. -/
theorem full_not_side_effect_free_witness :
    ((Channel.put (⟨some 0, [], [], [0], 0⟩ : Channel Nat) [⟨true, some 4⟩] 7 false
        1).2.2 = PutOutcome.full) ∧
    (Channel.put (⟨some 0, [], [], [0], 0⟩ : Channel Nat) [⟨true, some 4⟩] 7 false
        1).1.waiting_readers = [] ∧
    (⟨some 0, [], [], [0], 0⟩ : Channel Nat).waiting_readers ≠ [] :=
  ⟨by decide,
   (full_not_side_effect_free (⟨some 0, [], [], [0], 0⟩ : Channel Nat) [⟨true, some 4⟩] 7 1
      (by decide)).2.2.1,
   by decide⟩

theorem putsNB_ok (vs : List V) : ∀ (mx : Nat) (pnd : List V) (ww : List (Nat × V))
    (st : Nat) (h : Heap V), pnd.length + vs.length ≤ mx →
    putsNB (⟨some mx, pnd, ww, [], st⟩ : Channel V) h vs =
      (⟨some mx, pnd ++ vs, ww, [], st⟩, h, true) := by
  induction vs with
  | nil => intro mx pnd ww st h _; simp [putsNB]
  | cons v rest ih =>
      intro mx pnd ww st h hlen
      have hcap : Channel.capReached (⟨some mx, pnd, ww, [], st⟩ : Channel V) = false := by
        simp only [List.length_cons] at hlen
        simp [Channel.capReached]
        omega
      have hput : Channel.put (⟨some mx, pnd, ww, [], st⟩ : Channel V) h v false 0 =
          (⟨some mx, pnd ++ [v], ww, [], st⟩, h, PutOutcome.buffered) := by
        rw [put_no_readers, hcap]
        simp
      have harith : (pnd ++ [v]).length + rest.length ≤ mx := by
        simp only [List.length_cons] at hlen
        simp only [List.length_append, List.length_cons, List.length_nil]
        omega
      simp only [putsNB, hput]
      rw [ih mx (pnd ++ [v]) ww st h harith]
      simp

/-- C4: with capacity `K` and no waiting readers (and a reachable buffer,
`|pending| ≤ K`), a non-blocking put appends and succeeds exactly when fewer
than `K` values are buffered and raises `Full` exactly when `K` values are
buffered; hence from empty, `K` non-blocking puts succeed, the `K+1`-st raises
`Full`, and after one get a put succeeds again. -/
theorem capacity_bound_full (c : Channel V) (h : Heap V) (v : V) (eid : Nat) (K : Nat)
    (hK : c.max = some K) (hR : c.waiting_readers = []) (hlen : c.pending.length ≤ K) :
    ((Channel.put c h v false eid =
        ({ c with pending := c.pending ++ [v] }, h, PutOutcome.buffered)) ↔
      c.pending.length < K) ∧
    ((Channel.put c h v false eid = (c, h, PutOutcome.full)) ↔ c.pending.length = K) ∧
    (∀ (vs : List V) (w : V), vs ≠ [] →
      putsNB (Channel.init (some vs.length)) [] vs =
        (⟨some vs.length, vs, [], [], 0⟩, [], true) ∧
      Channel.put (⟨some vs.length, vs, [], [], 0⟩ : Channel V) [] w false eid =
        ((⟨some vs.length, vs, [], [], 0⟩ : Channel V), [], PutOutcome.full) ∧
      (Channel.put
          (Channel.get (⟨some vs.length, vs, [], [], 0⟩ : Channel V) [] true none).1
          (Channel.get (⟨some vs.length, vs, [], [], 0⟩ : Channel V) [] true none).2.1
          w false eid).2.2 = PutOutcome.buffered) := by
  obtain ⟨mx, pnd, ww, wr, st⟩ := c
  replace hK : mx = some K := hK
  replace hR : wr = [] := hR
  replace hlen : pnd.length ≤ K := hlen
  subst hK; subst hR
  dsimp only
  refine ⟨?_, ?_, ?_⟩
  · rw [put_no_readers]
    by_cases hlt : pnd.length < K
    · have hcap : Channel.capReached (⟨some K, pnd, ww, [], st⟩ : Channel V) = false :=
        @decide_eq_false (K ≤ pnd.length) _ (by omega)
      rw [hcap, if_neg (by simp)]
      exact iff_of_true rfl hlt
    · have hcap : Channel.capReached (⟨some K, pnd, ww, [], st⟩ : Channel V) = true :=
        @decide_eq_true (K ≤ pnd.length) _ (by omega)
      rw [hcap, if_pos rfl, if_neg (by simp)]
      refine iff_of_false (fun he => ?_) hlt
      have := congrArg (fun t => t.2.2) he
      exact absurd this (by simp)
  · rw [put_no_readers]
    by_cases hlt : pnd.length < K
    · have hcap : Channel.capReached (⟨some K, pnd, ww, [], st⟩ : Channel V) = false :=
        @decide_eq_false (K ≤ pnd.length) _ (by omega)
      rw [hcap, if_neg (by simp)]
      refine iff_of_false (fun he => ?_) (by omega)
      have := congrArg (fun t => t.2.2) he
      exact absurd this (by simp)
    · have hcap : Channel.capReached (⟨some K, pnd, ww, [], st⟩ : Channel V) = true :=
        @decide_eq_true (K ≤ pnd.length) _ (by omega)
      rw [hcap, if_pos rfl, if_neg (by simp)]
      exact iff_of_true rfl (by omega)
  · intro vs w hne
    match vs, hne with
    | v0 :: vt, _ =>
        refine ⟨?_, ?_, ?_⟩
        · have := putsNB_ok (v0 :: vt) (v0 :: vt).length [] [] 0 [] (by simp)
          simpa [Channel.init] using this
        · have hcap : Channel.capReached
              (⟨some (v0 :: vt).length, v0 :: vt, [], [], 0⟩ : Channel V) = true := by
            simp [Channel.capReached]
          rw [put_no_readers, hcap, if_pos rfl, if_neg (by simp)]
        · have hget : Channel.get (⟨some (v0 :: vt).length, v0 :: vt, [], [], 0⟩ :
              Channel V) [] true none =
              (⟨some (v0 :: vt).length, vt, [], [], 0⟩,
               heapSet ([] ++ [Selector.mk0]) 0 ⟨true, some v0⟩,
               Channel.finish true (heapSet ([] ++ [Selector.mk0]) 0 ⟨true, some v0⟩) 0
                 none) := by
            rw [Channel.get]
            exact getBody_pending_accept_nw _ v0 vt [] 0 _ true _ true (fresh_unset [])
          rw [hget]
          have hcap : Channel.capReached
              (⟨some (v0 :: vt).length, vt, [], [], 0⟩ : Channel V) = false := by
            simp [Channel.capReached]
          rw [put_no_readers, hcap, if_neg (by simp)]

/-- Witness for C4 at capacity 1. -/
theorem capacity_bound_full_witness :
    ((⟨some 1, [], [], [], 0⟩ : Channel Nat).max = some 1 ∧ (0 : Nat) < 1) ∧
    Channel.put (⟨some 1, [], [], [], 0⟩ : Channel Nat) [] 5 false 0 =
      (⟨some 1, [5], [], [], 0⟩, [], PutOutcome.buffered) :=
  ⟨⟨rfl, by decide⟩,
   (capacity_bound_full (⟨some 1, [], [], [], 0⟩ : Channel Nat) [] 5 0 1 rfl rfl
      (by decide)).1.mpr (by decide)⟩

theorem putsB_unbounded (vs : List V) : ∀ (pnd : List V) (ww : List (Nat × V)) (st : Nat)
    (h : Heap V),
    putsB (⟨none, pnd, ww, [], st⟩ : Channel V) h vs = (⟨none, pnd ++ vs, ww, [], st⟩, h) := by
  induction vs with
  | nil => intro pnd ww st h; simp [putsB]
  | cons v rest ih =>
      intro pnd ww st h
      have hput : Channel.put (⟨none, pnd, ww, [], st⟩ : Channel V) h v true 0 =
          (⟨none, pnd ++ [v], ww, [], st⟩, h, PutOutcome.buffered) := by
        rw [put_no_readers, if_neg (by simp [Channel.capReached])]
      simp only [putsB, hput]
      rw [ih (pnd ++ [v]) ww st h]
      simp

theorem getsN_fifo (vs : List V) : ∀ (pnd : List V) (st : Nat) (h : Heap V),
    ∃ h2, getsN (⟨none, vs ++ pnd, [], [], st⟩ : Channel V) h vs.length =
      (⟨none, pnd, [], [], st⟩, h2, vs.map some) := by
  induction vs with
  | nil => intro pnd st h; exact ⟨h, by simp [getsN]⟩
  | cons v rest ih =>
      intro pnd st h
      obtain ⟨h2, ihe⟩ := ih pnd st (heapSet (h ++ [Selector.mk0]) h.length ⟨true, some v⟩)
      refine ⟨h2, ?_⟩
      have hget : Channel.get (⟨none, v :: (rest ++ pnd), [], [], st⟩ : Channel V) h
          true none =
          (⟨none, rest ++ pnd, [], [], st⟩,
           heapSet (h ++ [Selector.mk0]) h.length ⟨true, some v⟩,
           ⟨GetOutcome.returned (some v), none⟩) := by
        rw [Channel.get,
          getBody_pending_accept_nw none v (rest ++ pnd) [] st _ true _ true (fresh_unset h)]
        rw [finish_internal, fresh_set_get]
      simp only [List.cons_append, List.length_cons, getsN, hget, ihe]
      simp

/-- C3: FIFO round trip on a fresh unbounded channel: putting `v1..vN` and
then performing `N` blocking gets returns exactly `v1..vN` in order. -/
theorem fifo_round_trip (vs : List V) :
    (getsN (putsB (Channel.init none) [] vs).1 (putsB (Channel.init none) [] vs).2
      vs.length).2.2 = vs.map some := by
  have hputs := putsB_unbounded vs [] [] 0 []
  have hinit : (Channel.init none : Channel V) = ⟨none, [], [], [], 0⟩ := rfl
  rw [hinit, hputs]
  obtain ⟨h2, hg⟩ := getsN_fifo vs [] 0 []
  simp only [List.append_nil] at hg
  simp only [List.nil_append]
  rw [hg]

theorem select_nb_spec (cs : List (Channel V)) : ∀ h : Heap V,
    (channel_select_nonblocking cs h).2.2 = specFirstAvailable cs := by
  induction cs with
  | nil => intro h; rfl
  | cons c ct ih =>
      intro h
      obtain ⟨mx, pnd, ww, wr, st⟩ := c
      match pnd, ww with
      | [], [] =>
          have hget : Channel.get (⟨mx, [], [], wr, st⟩ : Channel V) h false none =
              (⟨mx, [], [], wr, st⟩, h ++ [Selector.mk0], ⟨GetOutcome.empty, none⟩) := by
            rw [Channel.get, getBody_empty]
            simp
          rcases hsel : channel_select_nonblocking ct (h ++ [Selector.mk0]) with ⟨cs2, h2, out⟩
          have := ih (h ++ [Selector.mk0])
          rw [hsel] at this
          simp only [channel_select_nonblocking, hget, hsel]
          simpa [specFirstAvailable] using this
      | [], (we, wv) :: wrest =>
          have hget : Channel.get (⟨mx, [], (we, wv) :: wrest, wr, st⟩ : Channel V) h
              false none =
              (⟨mx, [], wrest, wr, st⟩,
               heapSet (h ++ [Selector.mk0]) h.length ⟨true, some wv⟩,
               ⟨GetOutcome.returned (some wv), some we⟩) := by
            rw [Channel.get,
              getBody_writer_accept mx we wv wrest wr st _ false _ true (fresh_unset h)]
            rw [finish_internal, fresh_set_get]
          simp only [channel_select_nonblocking, hget]
          simp [specFirstAvailable]
      | qv :: prest, [] =>
          have hget : Channel.get (⟨mx, qv :: prest, [], wr, st⟩ : Channel V) h false none =
              (⟨mx, prest, [], wr, st⟩,
               heapSet (h ++ [Selector.mk0]) h.length ⟨true, some qv⟩,
               ⟨GetOutcome.returned (some qv), none⟩) := by
            rw [Channel.get,
              getBody_pending_accept_nw mx qv prest wr st _ false _ true (fresh_unset h)]
            rw [finish_internal, fresh_set_get]
          simp only [channel_select_nonblocking, hget]
          simp [specFirstAvailable]
      | qv :: prest, (we, wv) :: wrest =>
          have hget : Channel.get (⟨mx, qv :: prest, (we, wv) :: wrest, wr, st⟩ : Channel V)
              h false none =
              (⟨mx, prest ++ [wv], wrest, wr, st⟩,
               heapSet (h ++ [Selector.mk0]) h.length ⟨true, some qv⟩,
               ⟨GetOutcome.returned (some qv), some we⟩) := by
            rw [Channel.get,
              getBody_pending_accept_w mx qv prest we wv wrest wr st _ false _ true
                (fresh_unset h)]
            rw [finish_internal, fresh_set_get]
          simp only [channel_select_nonblocking, hget]
          simp [specFirstAvailable]

theorem specFirstAvailable_none_iff (cs : List (Channel V)) :
    specFirstAvailable cs = none ↔ ∀ c ∈ cs, c.pending = [] ∧ c.waiting_writers = [] := by
  induction cs with
  | nil => simp [specFirstAvailable]
  | cons c ct ih =>
      obtain ⟨mx, pnd, ww, wr, st⟩ := c
      match pnd, ww with
      | [], [] => simp [specFirstAvailable, ih]
      | [], (we, wv) :: wrest => simp [specFirstAvailable]
      | qv :: prest, _ => simp [specFirstAvailable]

/-- C9: non-blocking `channel_select` over a non-empty channel list returns
the head value of the first channel with something available (in list order),
and raises `Empty` exactly when every channel in the list is empty. -/
theorem nonblocking_select_complete (cs : List (Channel V)) (h : Heap V) (hne : cs ≠ []) :
    (channel_select_nonblocking cs h).2.2 = specFirstAvailable cs ∧
    ((channel_select_nonblocking cs h).2.2 = none ↔
      ∀ c ∈ cs, c.pending = [] ∧ c.waiting_writers = []) := by
  refine ⟨select_nb_spec cs h, ?_⟩
  rw [select_nb_spec cs h]
  exact specFirstAvailable_none_iff cs

/-- Witness for C9: first channel empty, second holds 9. -/
theorem nonblocking_select_complete_witness :
    (([(⟨none, [], [], [], 0⟩ : Channel Nat), ⟨none, [9], [], [], 0⟩] :
        List (Channel Nat)) ≠ []) ∧
    (channel_select_nonblocking
      ([(⟨none, [], [], [], 0⟩ : Channel Nat), ⟨none, [9], [], [], 0⟩]) []).2.2 =
      specFirstAvailable ([(⟨none, [], [], [], 0⟩ : Channel Nat), ⟨none, [9], [], [], 0⟩]) :=
  ⟨by decide,
   (nonblocking_select_complete
      ([(⟨none, [], [], [], 0⟩ : Channel Nat), ⟨none, [9], [], [], 0⟩]) []
      (by decide)).1⟩

/-! ### Invariant I1 -/

theorem put_I1 (c : Channel V) (h : Heap V) (v : V) (b : Bool) (eid : Nat)
    (hI : I1 c) : I1 (Channel.put c h v b eid).1 := by
  obtain ⟨mx, pnd, ww, wr, st⟩ := c
  match pnd, wr with
  | pnd, [] =>
      rw [put_no_readers]
      split
      · split
        · exact Or.inr rfl
        · exact Or.inr rfl
      · exact Or.inr rfl
  | [], r :: rs =>
      rcases hol : offerLoop v h (r :: rs) with ⟨h2, orest⟩
      rcases orest with _ | rest
      · rw [put_empty_pending_none mx ww (r :: rs) st h h2 v b eid hol]
        split
        · split
          · exact Or.inr rfl
          · exact Or.inr rfl
        · exact Or.inr rfl
      · rw [put_empty_pending_delivered mx ww (r :: rs) st h h2 v b eid rest hol]
        exact Or.inl rfl
  | p :: ps, r :: rs =>
      rcases hI with h1 | h1 <;> exact absurd h1 (by simp)

theorem put_not_fatal (c : Channel V) (h : Heap V) (v : V) (b : Bool) (eid : Nat)
    (hI : I1 c) : isFatal (Channel.put c h v b eid).2.2 = false := by
  obtain ⟨mx, pnd, ww, wr, st⟩ := c
  match pnd, wr with
  | pnd, [] =>
      rw [put_no_readers]
      split
      · split <;> rfl
      · rfl
  | [], r :: rs =>
      rcases hol : offerLoop v h (r :: rs) with ⟨h2, orest⟩
      rcases orest with _ | rest
      · rw [put_empty_pending_none mx ww (r :: rs) st h h2 v b eid hol]
        split
        · split <;> rfl
        · rfl
      · rw [put_empty_pending_delivered mx ww (r :: rs) st h h2 v b eid rest hol]
        rfl
  | p :: ps, r :: rs =>
      rcases hI with h1 | h1 <;> exact absurd h1 (by simp)

theorem getBody_I1 (c : Channel V) (h : Heap V) (b : Bool) (sid : Nat) (itl : Bool)
    (hI : I1 c) : I1 (Channel.getBody c h b sid itl).1 := by
  obtain ⟨mx, pnd, ww, wr, st⟩ := c
  match pnd, ww with
  | qv :: prest, [] =>
      have hwr : wr = [] := by
        rcases hI with h1 | h1
        · exact absurd h1 (by simp)
        · exact h1
      subst hwr
      rcases hcase : Selector.stale h sid with hs | hs
      · rw [getBody_pending_accept_nw mx qv prest [] st h b sid itl hcase]
        exact Or.inr rfl
      · rw [getBody_pending_refuse mx qv prest [] [] st h b sid itl hcase]
        exact Or.inr rfl
  | qv :: prest, (we, wv) :: wrest =>
      have hwr : wr = [] := by
        rcases hI with h1 | h1
        · exact absurd h1 (by simp)
        · exact h1
      subst hwr
      rcases hcase : Selector.stale h sid with hs | hs
      · rw [getBody_pending_accept_w mx qv prest we wv wrest [] st h b sid itl hcase]
        exact Or.inr rfl
      · rw [getBody_pending_refuse mx qv prest _ [] st h b sid itl hcase]
        exact Or.inr rfl
  | [], (we, wv) :: wrest =>
      rcases hcase : Selector.stale h sid with hs | hs
      · rw [getBody_writer_accept mx we wv wrest wr st h b sid itl hcase]
        exact Or.inl rfl
      · rw [getBody_writer_refuse mx we wv wrest wr st h b sid itl hcase]
        exact Or.inl rfl
  | [], [] =>
      rw [getBody_empty]
      split
      · exact Or.inl rfl
      · exact Or.inl rfl

theorem staleStep_I1 (c : Channel V) (h : Heap V) (hI : I1 c) :
    I1 (Channel.staleStep c h) := by
  rcases hI with h1 | h1
  · exact Or.inl (by rw [staleStep_pending]; exact h1)
  · refine Or.inr ?_
    rw [staleStep_readers, h1]
    split <;> simp

theorem get_I1 (c : Channel V) (h : Heap V) (b : Bool) (ext : Option Nat)
    (hI : I1 c) : I1 (Channel.get c h b ext).1 := by
  match ext with
  | some sid => exact getBody_I1 _ _ _ _ _ (staleStep_I1 c h hI)
  | none => exact getBody_I1 _ _ _ _ _ hI

theorem step_I1All (s : GState V) (op : Op V) (hI : I1All s) : I1All (step s op) := by
  match op with
  | Op.alloc => exact hI
  | Op.put cid v b =>
      rw [step]
      rcases hc : s.channels[cid]? with _ | c
      · simp only; exact hI
      · simp only
        rcases hp : Channel.put c s.heap v b s.nextEvent with ⟨c', h', out⟩
        intro x hx
        rcases List.mem_or_eq_of_mem_set hx with hmem | heq
        · exact hI x hmem
        · subst heq
          have := put_I1 c s.heap v b s.nextEvent (hI c (List.getElem?_mem hc))
          rw [hp] at this
          exact this
  | Op.get cid b ext =>
      rw [step]
      rcases hc : s.channels[cid]? with _ | c
      · simp only; exact hI
      · simp only
        rcases hp : Channel.get c s.heap b ext with ⟨c', h', r⟩
        intro x hx
        rcases List.mem_or_eq_of_mem_set hx with hmem | heq
        · exact hI x hmem
        · subst heq
          have := get_I1 c s.heap b ext (hI c (List.getElem?_mem hc))
          rw [hp] at this
          exact this

theorem initG_I1All (caps : List (Option Nat)) : I1All (initG (V := V) caps) := by
  intro c hc
  rcases List.mem_map.mp hc with ⟨cap, _, hceq⟩
  rw [← hceq]
  exact Or.inl rfl

theorem run_I1All (ops : List (Op V)) : ∀ s : GState V, I1All s → I1All (run s ops) := by
  induction ops with
  | nil => exact fun s hI => hI
  | cons op rest ih => exact fun s hI => ih (step s op) (step_I1All s op hI)

theorem opFatal_of_I1All (s : GState V) (op : Op V) (hI : I1All s) :
    opFatal s op = false := by
  match op with
  | Op.alloc => rfl
  | Op.get cid b ext => rfl
  | Op.put cid v b =>
      rw [opFatal]
      rcases hc : s.channels[cid]? with _ | c
      · simp only
      · simp only
        exact put_not_fatal c s.heap v b s.nextEvent (hI c (List.getElem?_mem hc))

/-- C2: from freshly constructed channels (any capacities), after any
sequence of put/get/selector operations — with or without external selectors,
shared across channels or not — no channel ever has both a queued reader and a
pending value, and the fatal invariant-violation raise at the top of `put` can
never fire on the next operation. -/
theorem invariant_never_violated (caps : List (Option Nat)) (ops : List (Op V))
    (op : Op V) :
    I1All (run (initG caps) ops) ∧ opFatal (run (initG caps) ops) op = false := by
  have hI : I1All (run (initG (V := V) caps) ops) :=
    run_I1All ops (initG caps) (initG_I1All caps)
  exact ⟨hI, opFatal_of_I1All _ op hI⟩

/-! ### Lemmas for blocking select (C1) -/

theorem staleStep_record (mx : Option Nat) (pnd : List V) (ww : List (Nat × V))
    (wr : List Nat) (st : Nat) (h : Heap V) :
    Channel.staleStep (⟨mx, pnd, ww, wr, st⟩ : Channel V) h =
      ⟨mx, pnd, ww,
       if st + 1 > maxStale then wr.filter (fun r => !(Selector.stale h r)) else wr,
       if st + 1 > maxStale then 0 else st + 1⟩ := by
  rw [Channel.staleStep]
  split
  · next hc => simp_all
  · next hc => simp_all

theorem mkLoaded_eq (v : V) : mkLoaded v = ⟨none, [v], [], [], 0⟩ := rfl

theorem get_drained_reg (mx : Option Nat) (wr : List Nat) (st : Nat) (h : Heap V)
    (sid : Nat) (hd : ∀ r ∈ wr, Selector.stale h r = true ∨ r = sid) :
    ∃ wr2 st2, Channel.get (⟨mx, [], [], wr, st⟩ : Channel V) h true (some sid) =
      (⟨mx, [], [], wr2 ++ [sid], st2⟩, h, ⟨GetOutcome.externalNone, none⟩) ∧
      ∀ r ∈ wr2, Selector.stale h r = true ∨ r = sid := by
  refine ⟨if st + 1 > maxStale then wr.filter (fun r => !(Selector.stale h r)) else wr,
          if st + 1 > maxStale then 0 else st + 1, ?_, ?_⟩
  · rw [Channel.get, staleStep_record, getBody_empty, if_pos rfl]
    rfl
  · intro r hr
    split at hr
    · exact hd r (List.mem_of_mem_filter hr)
    · exact hd r hr

theorem get_loaded_win (mx : Option Nat) (v : V) (st : Nat) (h : Heap V) (sid : Nat)
    (hlt : sid < h.length) (hunset : Selector.stale h sid = false) :
    Channel.get (⟨mx, [v], [], [], st⟩ : Channel V) h true (some sid) =
      (⟨mx, [], [], [], if st + 1 > maxStale then 0 else st + 1⟩,
       heapSet h sid ⟨true, some v⟩, ⟨GetOutcome.externalNone, none⟩) := by
  rw [Channel.get, staleStep_record]
  simp only [List.filter_nil, ite_self]
  rw [getBody_pending_accept_nw mx v [] [] _ h true sid false hunset, finish_external]

theorem get_loaded_lose (mx : Option Nat) (v : V) (st : Nat) (h : Heap V) (sid : Nat)
    (hset : Selector.stale h sid = true) :
    Channel.get (⟨mx, [v], [], [], st⟩ : Channel V) h true (some sid) =
      (⟨mx, [v], [], [], if st + 1 > maxStale then 0 else st + 1⟩, h,
       ⟨GetOutcome.externalNone, none⟩) := by
  rw [Channel.get, staleStep_record]
  simp only [List.filter_nil, ite_self]
  rw [getBody_pending_refuse mx v [] [] [] _ h true sid false hset]

theorem drained_weaken (h : Heap V) (l : Heap V) (sid : Nat) (c : Channel V)
    (hd : Drained h c) : DrainedExc (h ++ l) sid c :=
  ⟨hd.1, hd.2.1, fun r hr => Or.inl (stale_append h l r (hd.2.2 r hr))⟩

theorem drainedExc_set (h : Heap V) (sid : Nat) (w : Option V) (c : Channel V)
    (hsid : sid < h.length) (hd : DrainedExc h sid c) :
    Drained (heapSet h sid ⟨true, w⟩) c := by
  refine ⟨hd.1, hd.2.1, fun r hr => ?_⟩
  rcases hd.2.2 r hr with hs | hs
  · exact stale_heapSet h r sid w hs
  · rw [hs, Selector.stale, heapGet_heapSet_self h sid _ hsid]

theorem registerAll_append (sid : Nat) : ∀ (xs ys : List (Channel V)) (h : Heap V),
    registerAll sid (xs ++ ys) h =
      ((registerAll sid xs h).1 ++ (registerAll sid ys (registerAll sid xs h).2).1,
       (registerAll sid ys (registerAll sid xs h).2).2) := by
  intro xs
  induction xs with
  | nil => intro ys h; simp [registerAll]
  | cons x xt ih =>
      intro ys h
      rcases hg : Channel.get x h true (some sid) with ⟨c', h', r⟩
      rcases hreg : registerAll sid (xt ++ ys) h' with ⟨cs', h''⟩
      simp only [List.cons_append, registerAll, hg, hreg]
      have := ih ys h'
      rw [hreg] at this
      rcases hxt : registerAll sid xt h' with ⟨xt', h3⟩
      rw [hxt] at this
      rcases hys : registerAll sid ys h3 with ⟨ys', h4⟩
      rw [hys] at this
      injection this with h5 h6
      simp only [List.append_eq]
      rw [hreg]
      rw [h5, h6]

theorem registerAll_drainedExc (sid : Nat) : ∀ (pre : List (Channel V)) (h : Heap V),
    (∀ c ∈ pre, DrainedExc h sid c) →
    ∃ pre2, registerAll sid pre h = (pre2, h) ∧
      ∀ c ∈ pre2, DrainedExc h sid c := by
  intro pre
  induction pre with
  | nil => intro h _; exact ⟨[], rfl, by simp⟩
  | cons c ct ih =>
      intro h hd
      obtain ⟨mx, pnd, ww, wr, st⟩ := c
      obtain ⟨hp, hw, hr⟩ := hd _ (List.mem_cons_self _ _)
      replace hp : pnd = [] := hp
      replace hw : ww = [] := hw
      subst hp; subst hw
      obtain ⟨wr2, st2, hget, hwr2⟩ := get_drained_reg mx wr st h sid hr
      obtain ⟨ct2, hreg, hct2⟩ := ih h (fun x hx => hd x (List.mem_cons_of_mem _ hx))
      refine ⟨⟨mx, [], [], wr2 ++ [sid], st2⟩ :: ct2, ?_, ?_⟩
      · simp only [registerAll, hget, hreg]
      · intro x hx
        rcases List.mem_cons.mp hx with hx1 | hx1
        · subst hx1
          refine ⟨rfl, rfl, fun r hrr => ?_⟩
          rcases List.mem_append.mp hrr with hm | hm
          · exact hwr2 r hm
          · simp only [List.mem_singleton] at hm
            exact Or.inr hm
        · exact hct2 x hx1

theorem registerAll_loaded_lose (sid : Nat) (h : Heap V)
    (hset : Selector.stale h sid = true) :
    ∀ (vt : List V) (cs : List (Channel V)), List.Forall₂ Loaded vt cs →
    ∃ cs2, registerAll sid cs h = (cs2, h) ∧ List.Forall₂ Loaded vt cs2 := by
  intro vt
  induction vt with
  | nil =>
      intro cs hf
      cases hf
      exact ⟨[], rfl, List.Forall₂.nil⟩
  | cons v vt ih =>
      intro cs hf
      rcases hf with _ | ⟨hload, hrest⟩
      next c ct =>
        obtain ⟨mx, pnd, ww, wr, st⟩ := c
        obtain ⟨hp, hw, hr⟩ := hload
        replace hp : pnd = [v] := hp
        replace hw : ww = [] := hw
        replace hr : wr = [] := hr
        subst hp; subst hw; subst hr
        obtain ⟨ct2, hreg, hct2⟩ := ih ct hrest
        refine ⟨⟨mx, [v], [], [], if st + 1 > maxStale then 0 else st + 1⟩ :: ct2, ?_, ?_⟩
        · simp only [registerAll, get_loaded_lose mx v st h sid hset, hreg]
        · exact List.Forall₂.cons ⟨rfl, rfl, rfl⟩ hct2

theorem select_step (vt : List V) (v : V) (pre cs : List (Channel V)) (h : Heap V)
    (hpre : ∀ c ∈ pre, Drained h c)
    (hcs : List.Forall₂ Loaded (v :: vt) cs) :
    ∃ pre2 cB cs2,
      channel_select_blocking (pre ++ cs) h =
        (pre2 ++ cB :: cs2, heapSet (h ++ [Selector.mk0]) h.length ⟨true, some v⟩,
         some v) ∧
      (∀ c ∈ pre2 ++ [cB],
        Drained (heapSet (h ++ [Selector.mk0]) h.length ⟨true, some v⟩) c) ∧
      List.Forall₂ Loaded vt cs2 := by
  cases hcs with
  | cons hload hrest =>
  rename_i cHead csRest
  have hfresh : Selector.stale (h ++ [Selector.mk0]) h.length = false := fresh_unset h
  have hpre1 : ∀ c ∈ pre, DrainedExc (h ++ [Selector.mk0]) h.length c :=
    fun c hc => drained_weaken h [Selector.mk0] h.length c (hpre c hc)
  obtain ⟨pre2, hregpre, hpre2⟩ :=
    registerAll_drainedExc h.length pre (h ++ [Selector.mk0]) hpre1
  obtain ⟨mx, pnd, ww, wr, st⟩ := cHead
  obtain ⟨hp, hw, hr⟩ := hload
  replace hp : pnd = [v] := hp
  replace hw : ww = [] := hw
  replace hr : wr = [] := hr
  subst hp; subst hw; subst hr
  have hwin := get_loaded_win mx v st (h ++ [Selector.mk0]) h.length (by simp) hfresh
  have hset2 : Selector.stale
      (heapSet (h ++ [Selector.mk0]) h.length ⟨true, some v⟩) h.length = true := by
    rw [Selector.stale, heapGet_heapSet_self _ _ _ (by simp)]
  obtain ⟨cs2, hregrest, hcs2⟩ :=
    registerAll_loaded_lose h.length
      (heapSet (h ++ [Selector.mk0]) h.length ⟨true, some v⟩) hset2 vt csRest hrest
  have hreghead : registerAll h.length ((⟨mx, [v], [], [], st⟩ : Channel V) :: csRest)
      (h ++ [Selector.mk0]) =
      ((⟨mx, [], [], [], if st + 1 > maxStale then 0 else st + 1⟩ : Channel V) :: cs2,
       heapSet (h ++ [Selector.mk0]) h.length ⟨true, some v⟩) := by
    simp only [registerAll, hwin, hregrest]
  have happ := registerAll_append h.length pre ((⟨mx, [v], [], [], st⟩ : Channel V) :: csRest)
    (h ++ [Selector.mk0])
  rw [hregpre] at happ
  dsimp only at happ
  rw [hreghead] at happ
  dsimp only at happ
  refine ⟨pre2, ⟨mx, [], [], [], if st + 1 > maxStale then 0 else st + 1⟩, cs2, ?_, ?_, hcs2⟩
  · simp only [channel_select_blocking, happ]
    rw [fresh_set_get]
  · intro c hc
    rcases List.mem_append.mp hc with hm | hm
    · exact drainedExc_set _ _ _ c (by simp) (hpre2 c hm)
    · simp only [List.mem_singleton] at hm
      subst hm
      exact ⟨rfl, rfl, by simp⟩

theorem runSelects_spec (vt : List V) : ∀ (pre cs : List (Channel V)) (h : Heap V),
    (∀ c ∈ pre, Drained h c) → List.Forall₂ Loaded vt cs →
    ∃ cs2 h2, runSelects vt.length (pre ++ cs) h = (cs2, h2, vt.map some) := by
  induction vt with
  | nil =>
      intro pre cs h _ _
      exact ⟨pre ++ cs, h, rfl⟩
  | cons v vt ih =>
      intro pre cs h hpre hcs
      obtain ⟨pre2, cB, cs2, hsel, hdr, hload⟩ := select_step vt v pre cs h hpre hcs
      obtain ⟨cs3, h3, hrun⟩ :=
        ih (pre2 ++ [cB]) cs2 (heapSet (h ++ [Selector.mk0]) h.length ⟨true, some v⟩)
          hdr hload
      refine ⟨cs3, h3, ?_⟩
      have hshape : (pre2 ++ [cB]) ++ cs2 = pre2 ++ cB :: cs2 := by simp
      rw [hshape] at hrun
      simp only [List.length_cons, runSelects, hsel, hrun]
      rfl

theorem reduceOption_map_some {α : Type} (vs : List α) :
    (vs.map some).reduceOption = vs := by
  induction vs with
  | nil => rfl
  | cons v vt ih => simp [List.reduceOption_cons_of_some, ih]

/-- C1: exactly-once select delivery: over `M` channels each holding exactly
one buffered value (any capacities, any stale counters, any pre-existing
selector heap), `M` sequential blocking `channel_select` calls return each of
the `M` values exactly once — in fact in channel order — so the multiset of
delivered values equals the multiset of the originals, with no duplicate and
no loss. -/
theorem select_exactly_once (vs : List V) (cs : List (Channel V)) (h : Heap V)
    (hcs : List.Forall₂ Loaded vs cs) :
    (runSelects vs.length cs h).2.2 = vs.map some ∧
    Multiset.ofList ((runSelects vs.length cs h).2.2.reduceOption) =
      Multiset.ofList vs := by
  obtain ⟨cs2, h2, hrun⟩ := runSelects_spec vs [] cs h (by simp) hcs
  rw [List.nil_append] at hrun
  have hmain : (runSelects vs.length cs h).2.2 = vs.map some := by
    rw [hrun]
  refine ⟨hmain, ?_⟩
  rw [hmain, reduceOption_map_some]

/-- Witness for C1: two unbounded channels holding 1 and 2; two sequential
blocking selects deliver exactly the multiset from the two channels. -/
theorem select_exactly_once_witness :
    (runSelects 2 [mkLoaded 1, mkLoaded 2] ([] : Heap Nat)).2.2 = [some 1, some 2] ∧
    Multiset.ofList
        ((runSelects 2 [mkLoaded 1, mkLoaded 2] ([] : Heap Nat)).2.2.reduceOption) =
      Multiset.ofList [1, 2] :=
  select_exactly_once [1, 2] [mkLoaded 1, mkLoaded 2] []
    (List.Forall₂.cons ⟨rfl, rfl, rfl⟩
      (List.Forall₂.cons ⟨rfl, rfl, rfl⟩ List.Forall₂.nil))

end Pygochan
